import Mathlib

/-!
Verification development for the compact bilinear pooling layer
(`CompactBilinearPooling.py`).

The source is a single PyTorch module.  We give a shallow embedding over
exact arithmetic (`ℚ` in place of float tensors):

* `generate_sketch_matrix` — the static sketch-matrix builder, including its
  numpy `astype` calls, its `assert` guards, and the sparse-COO-then-densify
  construction.
* `init` — the constructor `__init__`, including the global-RNG reseeding
  (`torch.random.manual_seed`) on the default path; the global torch RNG is
  modelled as a `ℕ` state that `manual_seed n` overwrites with `n` and each
  `torch.randint` call advances by one, with the drawn values supplied by an
  arbitrary `drawFn` parameter.
* `forward` — the forward transform: the channel-dimension `assert`, the
  permute/flatten, the projection `mm`, the FFT / element-wise multiply /
  inverse-FFT pipeline (with the discrete Fourier transform parametrised by a
  twiddle root `ω` represented as an explicit real/imaginary pair, exactly as
  the code tracks real and imaginary tensors), the reshape back to
  `[B, H, W, output_dim]`, and the optional spatial sum-pooling.

The element-wise product embeds the code's lines 91–93 verbatim:
`temp_rr - temp_ii` for the real part and `temp_rr + temp_ii` for the
imaginary part.
-/

namespace CompactBilinearPooling

/-- Error kinds raised by the Python code: `assert` failures
(`AssertionError`), shape/runtime failures from the tensor library
(`RuntimeError`), and missing-method failures (`AttributeError`). -/
inductive Err where
  | assertionError
  | runtimeError
  | attributeError
deriving DecidableEq

/-- A 1-D array tagged with the library it belongs to: the optional
`rand_h`/`rand_s` construction parameters are numpy arrays per the docstring,
while the default branch of `__init__` produces `torch.randint` tensors. -/
inductive NdArray (α : Type) where
  | numpyArr (data : List α)
  | torchArr (data : List α)
deriving DecidableEq

/-- Model of the `.astype(...)` call at the top of `generate_sketch_matrix`:
numpy arrays support it and (for the in-range integer / ±1 values at hand)
return their data unchanged; `torch.Tensor` has no `astype` method, so a
torch tensor raises `AttributeError`. -/
def astype {α : Type} : NdArray α → Except Err (List α)
  | .numpyArr d => .ok d
  | .torchArr _ => .error .attributeError

/-- A dense sketch matrix together with its shape `[rows, cols]`
(`[input_dim, output_dim]` in the source). -/
structure SketchMat where
  rows : ℕ
  cols : ℕ
  mat : Fin rows → Fin cols → ℚ

/-- Densification of a COO sparse matrix (`torch.sparse.FloatTensor(...).to_dense()`):
the entry at `(i, j)` is the sum of all values whose index pair is `(i, j)`. -/
def to_dense (n D : ℕ) (entries : List ((ℕ × ℤ) × ℚ)) : Fin n → Fin D → ℚ :=
  fun i j => (entries.map (fun e => if e.1 = (i.1, (j.1 : ℤ)) then e.2 else 0)).sum

/-- Embedding of the static method `generate_sketch_matrix(rand_h, rand_s, output_dim)`:
`astype` both inputs, `assert` that the lengths agree and every bucket index
lies in `[0, output_dim)`, build the COO index list `[(i, rand_h[i])]` with
values `rand_s`, and densify.  Note the asserts check nothing about the sign
values and nothing about positivity of `output_dim`. -/
def generate_sketch_matrix (rand_h : NdArray ℤ) (rand_s : NdArray ℚ)
    (output_dim : ℕ) : Except Err SketchMat :=
  match astype rand_h with
  | .error e => .error e
  | .ok h =>
    match astype rand_s with
    | .error e => .error e
    | .ok s =>
      if h.length = s.length ∧ ∀ x ∈ h, 0 ≤ x ∧ x < (output_dim : ℤ) then
        let entries : List ((ℕ × ℤ) × ℚ) :=
          List.ofFn (fun k : Fin h.length => ((k.1, h.get k), s.getD k.1 0))
        .ok ⟨h.length, output_dim, to_dense h.length output_dim entries⟩
      else
        .error .assertionError

/-- Whether an `Except` result is a success. -/
def isOkE {α : Type} : Except Err α → Bool
  | .ok _ => true
  | .error _ => false

/-- Model of `torch.random.manual_seed(n)`: the global torch generator state
(modelled as a `ℕ`) is overwritten with the seed. -/
def manual_seed (n : ℕ) (_st : ℕ) : ℕ := n

/-- Model of `torch.randint(bound, size=(count,))`: the drawn values are given
by the ambient generator function `drawFn` applied to the current global
state, and the global state advances by one step. -/
def randint (drawFn : ℕ → ℕ → ℕ → List ℤ) (bound count st : ℕ) :
    List ℤ × ℕ :=
  (drawFn st bound count, st + 1)

/-- The state held by a constructed layer: the construction dimensions, the
`sum_pool` flag, and the two dense sketch matrices. -/
structure Layer where
  input_dim1 : ℕ
  input_dim2 : ℕ
  output_dim : ℕ
  sum_pool : Bool
  sparse_sketch_matrix1 : SketchMat
  sparse_sketch_matrix2 : SketchMat

/-- Embedding of `__init__`.  Each `rand_*` argument that is `None` is filled
in from the global torch generator after reseeding it with the fixed seed the
code uses (1, 3, 5, 7); `rand_s` defaults are `2 * randint(2) - 1`.  The
default draws come back as torch tensors (`NdArray.torchArr`), supplied
arrays as numpy arrays.  Returns the constructed layer (or the exception
escaping the constructor) together with the final global RNG state. -/
def init (input_dim1 input_dim2 output_dim : ℕ) (sum_pool : Bool)
    (rand_h_1 : Option (NdArray ℤ)) (rand_s_1 : Option (NdArray ℚ))
    (rand_h_2 : Option (NdArray ℤ)) (rand_s_2 : Option (NdArray ℚ))
    (drawFn : ℕ → ℕ → ℕ → List ℤ) (st : ℕ) : Except Err Layer × ℕ :=
  let p1 : NdArray ℤ × ℕ :=
    match rand_h_1 with
    | some a => (a, st)
    | none =>
        let st := manual_seed 1 st
        let (v, st) := randint drawFn output_dim input_dim1 st
        (.torchArr v, st)
  let (h1, st) := p1
  let q1 : NdArray ℚ × ℕ :=
    match rand_s_1 with
    | some a => (a, st)
    | none =>
        let st := manual_seed 3 st
        let (v, st) := randint drawFn 2 input_dim1 st
        (.torchArr (v.map (fun x => 2 * (x : ℚ) - 1)), st)
  let (s1, st) := q1
  match generate_sketch_matrix h1 s1 output_dim with
  | .error e => (.error e, st)
  | .ok m1 =>
    let p2 : NdArray ℤ × ℕ :=
      match rand_h_2 with
      | some a => (a, st)
      | none =>
          let st := manual_seed 5 st
          let (v, st) := randint drawFn output_dim input_dim2 st
          (.torchArr v, st)
    let (h2, st) := p2
    let q2 : NdArray ℚ × ℕ :=
      match rand_s_2 with
      | some a => (a, st)
      | none =>
          let st := manual_seed 7 st
          let (v, st) := randint drawFn 2 input_dim2 st
          (.torchArr (v.map (fun x => 2 * (x : ℚ) - 1)), st)
    let (s2, st) := q2
    match generate_sketch_matrix h2 s2 output_dim with
    | .error e => (.error e, st)
    | .ok m2 =>
      (.ok ⟨input_dim1, input_dim2, output_dim, sum_pool, m1, m2⟩, st)

/-- Complex multiplication on explicit (real, imaginary) pairs, as tracked by
the code's separate real/imaginary tensors. -/
def cmul (p q : ℚ × ℚ) : ℚ × ℚ :=
  (p.1 * q.1 - p.2 * q.2, p.1 * q.2 + p.2 * q.1)

/-- Scaling of a (real, imaginary) pair by a real scalar. -/
def cscale (a : ℚ) (p : ℚ × ℚ) : ℚ × ℚ := (a * p.1, a * p.2)

/-- Powers of a (real, imaginary) pair under complex multiplication. -/
def cpow (p : ℚ × ℚ) : ℕ → ℚ × ℚ
  | 0 => (1, 0)
  | n + 1 => cmul p (cpow p n)

/-- Pairing of a real signal with the all-zeros imaginary tensor the code
passes as second argument to `afft.Fft()`. -/
def toC {D : ℕ} (u : Fin D → ℚ) : Fin D → ℚ × ℚ := fun j => (u j, 0)

/-- Discrete Fourier transform of a length-`D` complex vector with twiddle
root `ω` (for the transform the code invokes, `ω = e^(-2πi/D)`):
`X_k = Σ_j ω^(j·k) · x_j`. -/
def dftVec {D : ℕ} (ω : ℚ × ℚ) (x : Fin D → ℚ × ℚ) (k : Fin D) : ℚ × ℚ :=
  ∑ j, cmul (cpow ω (j.1 * k.1)) (x j)

/-- Inverse discrete Fourier transform with twiddle root `ωi` (the conjugate
root `e^(2πi/D)`) and normalisation factor `ninv` (`1/D`):
`x_j = ninv · Σ_k ωi^(j·k) · X_k`. -/
def idftVec {D : ℕ} (ωi : ℚ × ℚ) (ninv : ℚ) (x : Fin D → ℚ × ℚ) (j : Fin D) :
    ℚ × ℚ :=
  cscale ninv (∑ k, cmul (cpow ωi (j.1 * k.1)) (x k))

/-- Embedding of lines 91–93 of the source, exactly as written:
`temp_rr, temp_ii = fft1_real.mul(fft2_real), fft1_imag.mul(fft2_imag)`,
`fft_product_real = temp_rr - temp_ii`, `fft_product_imag = temp_rr + temp_ii`.
(The imaginary part the code computes is `r1·r2 + i1·i2`, not the complex
product's `r1·i2 + i1·r2`.) -/
def fft_product (p q : ℚ × ℚ) : ℚ × ℚ :=
  let temp_rr := p.1 * q.1
  let temp_ii := p.2 * q.2
  (temp_rr - temp_ii, temp_rr + temp_ii)

/-- Matrix product of flattened-input rows with a sketch matrix
(`bottom_flat.mm(sparse_sketch_matrix)`). -/
def mmRows {N C D : ℕ} (x : Fin N → Fin C → ℚ) (M : Fin C → Fin D → ℚ) :
    Fin N → Fin D → ℚ :=
  fun n d => ∑ c, x n c * M c d

/-- The FFT / element-wise-multiply / inverse-FFT pipeline applied to every
row of the two projected sketches (lines 88–95), returning the real part the
code keeps (`afft.Ifft()(...)[0]`). -/
def convRows {N D : ℕ} (ω ωi : ℚ × ℚ) (ninv : ℚ)
    (s1 s2 : Fin N → Fin D → ℚ) : Fin N → Fin D → ℚ :=
  fun n d =>
    (idftVec ωi ninv
      (fun k => fft_product (dftVec ω (toC (s1 n)) k) (dftVec ω (toC (s2 n)) k))
      d).1

/-- Row index of spatial position `(b, h, w)` after
`permute(0, 2, 3, 1).contiguous().view(-1, input_dim)`. -/
def enc {B H W : ℕ} (b : Fin B) (h : Fin H) (w : Fin W) : Fin (B * H * W) :=
  ⟨(b.1 * H + h.1) * W + w.1, by
    have hb : b.1 * H + h.1 < B * H := by
      calc b.1 * H + h.1 < b.1 * H + H := by omega
        _ = (b.1 + 1) * H := by ring
        _ ≤ B * H := Nat.mul_le_mul_right H b.2
    calc (b.1 * H + h.1) * W + w.1 < (b.1 * H + h.1) * W + W := by omega
      _ = (b.1 * H + h.1 + 1) * W := by ring
      _ ≤ B * H * W := Nat.mul_le_mul_right W hb⟩

/-- The flattening `bottom.permute(0, 2, 3, 1).contiguous().view(-1, C)`:
row `n` of the flattened matrix holds the channel vector of spatial position
`(n / (H·W), (n % (H·W)) / W, n % W)`. -/
def flat4 {B C H W : ℕ} (x : Fin B → Fin C → Fin H → Fin W → ℚ)
    (n : Fin (B * H * W)) (c : Fin C) : ℚ :=
  have hBHW : 0 < B * H * W := Nat.lt_of_le_of_lt (Nat.zero_le _) n.2
  have hW : 0 < W := by
    rcases Nat.eq_zero_or_pos W with h | h
    · subst h; simp at hBHW
    · exact h
  have hHW : 0 < H * W := by
    rcases Nat.eq_zero_or_pos (H * W) with h | h
    · rw [Nat.mul_assoc, h, Nat.mul_zero] at hBHW; simp at hBHW
    · exact h
  x ⟨n.1 / (H * W), by
      rw [Nat.div_lt_iff_lt_mul hHW]
      rw [← Nat.mul_assoc]; exact n.2⟩
    c
    ⟨n.1 % (H * W) / W, by
      rw [Nat.div_lt_iff_lt_mul hW]
      exact Nat.mod_lt _ hHW⟩
    ⟨n.1 % W, Nat.mod_lt _ hW⟩

/-- The full forward transform restricted to the sketch-projection pipeline,
for valid inputs, without spatial pooling (steps 1–6 of the algorithm):
flatten, project both inputs, run the FFT pipeline row-wise, and view the
result back as `[B, H, W, output_dim]`. -/
def cbpUnpooled {B C1 C2 H W D : ℕ} (M1 : Fin C1 → Fin D → ℚ)
    (M2 : Fin C2 → Fin D → ℚ) (ω ωi : ℚ × ℚ) (ninv : ℚ)
    (x1 : Fin B → Fin C1 → Fin H → Fin W → ℚ)
    (x2 : Fin B → Fin C2 → Fin H → Fin W → ℚ)
    (b : Fin B) (h : Fin H) (w : Fin W) (d : Fin D) : ℚ :=
  convRows ω ωi ninv (mmRows (flat4 x1) M1) (mmRows (flat4 x2) M2) (enc b h w) d

/-- The forward transform with spatial sum-pooling
(`cbp.sum(dim=1).sum(dim=1)`: first over height, then over width). -/
def cbpPooled {B C1 C2 H W D : ℕ} (M1 : Fin C1 → Fin D → ℚ)
    (M2 : Fin C2 → Fin D → ℚ) (ω ωi : ℚ × ℚ) (ninv : ℚ)
    (x1 : Fin B → Fin C1 → Fin H → Fin W → ℚ)
    (x2 : Fin B → Fin C2 → Fin H → Fin W → ℚ)
    (b : Fin B) (d : Fin D) : ℚ :=
  ∑ w, ∑ h, cbpUnpooled M1 M2 ω ωi ninv x1 x2 b h w d

/-- A 4-D input tensor `[batch, channels, height, width]` with runtime
shape. -/
structure T4 where
  b : ℕ
  c : ℕ
  h : ℕ
  w : ℕ
  data : Fin b → Fin c → Fin h → Fin w → ℚ

/-- The tensor returned by `forward`: pooled `[batch, output_dim]` or
unpooled `[batch, height, width, output_dim]`. -/
inductive Out where
  | pooled (b d : ℕ) (data : Fin b → Fin d → ℚ)
  | unpooled (b h w d : ℕ) (data : Fin b → Fin h → Fin w → Fin d → ℚ)

/-- Shape of a `forward` result as a dimension list. -/
def outShape : Out → List ℕ
  | .pooled b d _ => [b, d]
  | .unpooled b h w d _ => [b, h, w, d]

/-- Embedding of `forward(bottom1, bottom2)` with runtime shapes.
First the `assert` on the two channel dimensions (lines 77–78, the only
check the code performs before computing).  Then batch/height/width are
read from `bottom1` alone, both inputs are flattened and projected, and the
row-wise FFT pipeline runs.  The element-wise multiply of the two
transformed signals requires equal row counts (torch broadcasting admits a
singleton row count on either side; a broadcast over `bottom1`'s rows then
fails at the final `view`, which needs exactly `B·H·W` rows).  Any such
failure is a torch `RuntimeError`, raised only after the sketches have been
materialised. -/
def forward (input_dim1 input_dim2 D : ℕ)
    (M1 : Fin input_dim1 → Fin D → ℚ) (M2 : Fin input_dim2 → Fin D → ℚ)
    (ω ωi : ℚ × ℚ) (ninv : ℚ) (sum_pool : Bool) (t1 t2 : T4) :
    Except Err Out :=
  if hc1 : t1.c = input_dim1 then
    if hc2 : t2.c = input_dim2 then
      let sk1 := mmRows (flat4 t1.data) (fun c d => M1 (Fin.cast hc1 c) d)
      let sk2 := mmRows (flat4 t2.data) (fun c d => M2 (Fin.cast hc2 c) d)
      if hN : t2.b * t2.h * t2.w = t1.b * t1.h * t1.w then
        let cbp_flat :=
          convRows ω ωi ninv sk1 (fun n => sk2 (Fin.cast hN.symm n))
        let cbp := fun b h w d => cbp_flat (enc b h w) d
        if sum_pool then
          .ok (.pooled t1.b D (fun b d => ∑ w, ∑ h, cbp b h w d))
        else
          .ok (.unpooled t1.b t1.h t1.w D cbp)
      else if t1.b * t1.h * t1.w = 1 then
        .error .runtimeError
      else if h2 : t2.b * t2.h * t2.w = 1 then
        let cbp_flat :=
          convRows ω ωi ninv sk1 (fun _ => sk2 ⟨0, by omega⟩)
        let cbp := fun b h w d => cbp_flat (enc b h w) d
        if sum_pool then
          .ok (.pooled t1.b D (fun b d => ∑ w, ∑ h, cbp b h w d))
        else
          .ok (.unpooled t1.b t1.h t1.w D cbp)
      else
        .error .runtimeError
    else
      .error .assertionError
  else
    .error .assertionError

/-- Circular convolution of two length-`D` vectors:
`(u ⊛ v)(k) = Σ_i u(i) · v(k − i)` with index arithmetic mod `D`. -/
def circConv {D : ℕ} (u v : Fin D → ℚ) (k : Fin D) : ℚ :=
  ∑ i, u i * v (k - i)

lemma enc_val_decomp {B H W : ℕ} (b : Fin B) (h : Fin H) (w : Fin W) :
    (b.1 * H + h.1) * W + w.1 = H * W * b.1 + (h.1 * W + w.1) := by ring

lemma hw_lt {H W : ℕ} (h : Fin H) (w : Fin W) : h.1 * W + w.1 < H * W := by
  calc h.1 * W + w.1 < h.1 * W + W := by omega
    _ = (h.1 + 1) * W := by ring
    _ ≤ H * W := Nat.mul_le_mul_right W h.2

lemma enc_div {B H W : ℕ} (b : Fin B) (h : Fin H) (w : Fin W) :
    ((b.1 * H + h.1) * W + w.1) / (H * W) = b.1 := by
  have hHW : 0 < H * W := Nat.lt_of_le_of_lt (Nat.zero_le _) (hw_lt h w)
  rw [enc_val_decomp, Nat.mul_add_div hHW, Nat.div_eq_of_lt (hw_lt h w)]
  omega

lemma enc_mod_div {B H W : ℕ} (b : Fin B) (h : Fin H) (w : Fin W) :
    ((b.1 * H + h.1) * W + w.1) % (H * W) / W = h.1 := by
  have hW : 0 < W := Nat.lt_of_le_of_lt (Nat.zero_le _) w.2
  rw [enc_val_decomp, Nat.mul_add_mod, Nat.mod_eq_of_lt (hw_lt h w)]
  rw [show h.1 * W + w.1 = W * h.1 + w.1 by ring, Nat.mul_add_div hW,
    Nat.div_eq_of_lt w.2]
  omega

lemma enc_mod {B H W : ℕ} (b : Fin B) (h : Fin H) (w : Fin W) :
    ((b.1 * H + h.1) * W + w.1) % W = w.1 := by
  rw [show (b.1 * H + h.1) * W + w.1 = W * (b.1 * H + h.1) + w.1 by ring,
    Nat.mul_add_mod, Nat.mod_eq_of_lt w.2]

lemma apply4_congr {B C H W : ℕ} (x : Fin B → Fin C → Fin H → Fin W → ℚ)
    {a a' : Fin B} {c : Fin C} {h h' : Fin H} {w w' : Fin W}
    (ea : a = a') (eh : h = h') (ew : w = w') : x a c h w = x a' c h' w' := by
  subst ea; subst eh; subst ew; rfl

/-- Row `enc b h w` of the flattened input is the channel vector at spatial
position `(b, h, w)`: the flatten/unflatten bookkeeping round-trips. -/
lemma flat4_enc {B C H W : ℕ} (x : Fin B → Fin C → Fin H → Fin W → ℚ)
    (b : Fin B) (h : Fin H) (w : Fin W) (c : Fin C) :
    flat4 x (enc b h w) c = x b c h w := by
  unfold flat4 enc
  exact apply4_congr x (Fin.ext (enc_div b h w)) (Fin.ext (enc_mod_div b h w))
    (Fin.ext (enc_mod b h w))

/-- On a pair of inputs whose shapes match the construction dimensions,
`forward` succeeds and returns exactly the core pipeline result
(`cbpPooled` when `sum_pool` is set, `cbpUnpooled` otherwise). -/
lemma forward_valid {B C1 C2 H W D : ℕ} (M1 : Fin C1 → Fin D → ℚ)
    (M2 : Fin C2 → Fin D → ℚ) (ω ωi : ℚ × ℚ) (ninv : ℚ) (sp : Bool)
    (x1 : Fin B → Fin C1 → Fin H → Fin W → ℚ)
    (x2 : Fin B → Fin C2 → Fin H → Fin W → ℚ) :
    forward C1 C2 D M1 M2 ω ωi ninv sp ⟨B, C1, H, W, x1⟩ ⟨B, C2, H, W, x2⟩ =
      .ok (if sp then .pooled B D (cbpPooled M1 M2 ω ωi ninv x1 x2)
        else .unpooled B H W D (cbpUnpooled M1 M2 ω ωi ninv x1 x2)) := by
  unfold forward
  rw [dif_pos rfl, dif_pos rfl, dif_pos rfl]
  cases sp <;> rfl

/-- C4: for every valid input pair of shapes `[B, input_dim1, H, W]` and
`[B, input_dim2, H, W]`, `forward` returns a tensor of shape
`[B, output_dim]` when `sum_pool` is true and `[B, H, W, output_dim]` when
`sum_pool` is false. -/
theorem c4_output_shape {B C1 C2 H W D : ℕ} (M1 : Fin C1 → Fin D → ℚ)
    (M2 : Fin C2 → Fin D → ℚ) (ω ωi : ℚ × ℚ) (ninv : ℚ)
    (x1 : Fin B → Fin C1 → Fin H → Fin W → ℚ)
    (x2 : Fin B → Fin C2 → Fin H → Fin W → ℚ) :
    (∃ o, forward C1 C2 D M1 M2 ω ωi ninv true ⟨B, C1, H, W, x1⟩
        ⟨B, C2, H, W, x2⟩ = .ok o ∧ outShape o = [B, D]) ∧
    (∃ o, forward C1 C2 D M1 M2 ω ωi ninv false ⟨B, C1, H, W, x1⟩
        ⟨B, C2, H, W, x2⟩ = .ok o ∧ outShape o = [B, H, W, D]) :=
  ⟨⟨_, forward_valid M1 M2 ω ωi ninv true x1 x2, rfl⟩,
   ⟨_, forward_valid M1 M2 ω ωi ninv false x1 x2, rfl⟩⟩

/-- C5: on the same valid inputs with the same sketch matrices, the pooled
`forward` output is the sum over the height and width axes of the unpooled
`forward` output: `pooled[b, d] = Σ_h Σ_w unpooled[b, h, w, d]`. -/
theorem c5_pooled_is_sum_of_unpooled {B C1 C2 H W D : ℕ}
    (M1 : Fin C1 → Fin D → ℚ) (M2 : Fin C2 → Fin D → ℚ) (ω ωi : ℚ × ℚ)
    (ninv : ℚ) (x1 : Fin B → Fin C1 → Fin H → Fin W → ℚ)
    (x2 : Fin B → Fin C2 → Fin H → Fin W → ℚ) :
    forward C1 C2 D M1 M2 ω ωi ninv true ⟨B, C1, H, W, x1⟩ ⟨B, C2, H, W, x2⟩ =
      .ok (.pooled B D (fun b d =>
        ∑ h, ∑ w, cbpUnpooled M1 M2 ω ωi ninv x1 x2 b h w d)) ∧
    forward C1 C2 D M1 M2 ω ωi ninv false ⟨B, C1, H, W, x1⟩ ⟨B, C2, H, W, x2⟩ =
      .ok (.unpooled B H W D (cbpUnpooled M1 M2 ω ωi ninv x1 x2)) := by
  constructor
  · rw [forward_valid M1 M2 ω ωi ninv true x1 x2]
    have : cbpPooled M1 M2 ω ωi ninv x1 x2 =
        fun b d => ∑ h, ∑ w, cbpUnpooled M1 M2 ω ωi ninv x1 x2 b h w d := by
      funext b d
      exact Finset.sum_comm
    rw [if_pos rfl] at *
    rw [this]
  · rw [forward_valid M1 M2 ω ωi ninv false x1 x2]
    rfl

/-- C2 (counterexample): the two inputs disagree in their spatial dimensions
(`bottom1` is `[1, 1, 2, 3]`, `bottom2` is `[1, 1, 3, 2]`), yet `forward`
raises no error at all and materialises an output, because the only check
performed (lines 77–78) compares channel dimensions, and the flattened row
counts `2·3 = 3·2` happen to coincide. -/
theorem c2_counterexample_spatial_mismatch_no_error :
    isOkE (forward 1 1 1 (fun _ _ => 1) (fun _ _ => 1) (0, -1) (0, 1) 1 true
      ⟨1, 1, 2, 3, fun _ _ _ _ => 1⟩ ⟨1, 1, 3, 2, fun _ _ _ _ => 1⟩) = true :=
  rfl

/-- C2 (amended): `forward` raises the shape assertion, before any
computation, exactly when a channel dimension disagrees with the
construction-time value; disagreement of the batch/spatial dimensions of the
two inputs is not checked up front (it either surfaces later as a runtime
error from the element-wise multiply/reshape, or — when the flattened row
counts coincide — produces an output with no error at all). -/
theorem c2_assert_iff_channel_mismatch (inD1 inD2 D : ℕ)
    (M1 : Fin inD1 → Fin D → ℚ) (M2 : Fin inD2 → Fin D → ℚ)
    (ω ωi : ℚ × ℚ) (ninv : ℚ) (sp : Bool) (t1 t2 : T4) :
    forward inD1 inD2 D M1 M2 ω ωi ninv sp t1 t2 = .error .assertionError ↔
      (t1.c ≠ inD1 ∨ t2.c ≠ inD2) := by
  unfold forward
  by_cases hc1 : t1.c = inD1
  · rw [dif_pos hc1]
    by_cases hc2 : t2.c = inD2
    · rw [dif_pos hc2]
      simp only [hc1, hc2, ne_eq, not_true_eq_false, or_self, iff_false]
      intro h
      repeat' split at h
      all_goals simp_all
    · rw [dif_neg hc2]; simp [hc2]
  · rw [dif_neg hc1]; simp [hc1]

/-- C3 (counterexample): `generate_sketch_matrix` accepts a sign value of `5`
(not `±1`) without any error, and the constructor accepts
`input_dim1 = input_dim2 = output_dim = 0` (non-positive dimensions) with
explicitly supplied empty specs, also without any error. -/
theorem c3_counterexample_sign_and_dims_unchecked :
    isOkE (generate_sketch_matrix (.numpyArr [0]) (.numpyArr [5]) 2) = true ∧
    isOkE (init 0 0 0 true (some (.numpyArr [])) (some (.numpyArr []))
      (some (.numpyArr [])) (some (.numpyArr [])) (fun _ _ _ => []) 0).1 =
      true := by
  constructor <;> decide

/-- C3 (amended): with (numpy) bucket/sign arrays supplied, sketch-matrix
generation raises its assertion exactly when the two arrays have different
lengths or some bucket index lies outside `[0, output_dim)`; sign values
other than `±1` and non-positive dimensions are accepted silently. -/
theorem c3_assert_iff_length_or_range (h : List ℤ) (s : List ℚ) (D : ℕ) :
    generate_sketch_matrix (.numpyArr h) (.numpyArr s) D =
        .error .assertionError ↔
      ¬(h.length = s.length ∧ ∀ x ∈ h, 0 ≤ x ∧ x < (D : ℤ)) := by
  simp only [generate_sketch_matrix, astype]
  split_ifs with hc
  · simp [hc]
    exact hc.2
  · simp [hc]

/-- Densifying the COO list `[(i, rand_h[i]) ↦ rand_s[i]]` gives the matrix
whose `(i, j)` entry is `rand_s[i]` when `j = rand_h[i]` and `0` otherwise. -/
lemma to_dense_entries (h : List ℤ) (s : List ℚ) (D : ℕ) (i : Fin h.length)
    (j : Fin D) :
    to_dense h.length D
        (List.ofFn (fun k : Fin h.length => ((k.1, h.get k), s.getD k.1 0)))
        i j =
      if (j.1 : ℤ) = h.get i then s.getD i.1 0 else 0 := by
  unfold to_dense
  rw [List.map_ofFn, List.sum_ofFn]
  rw [Finset.sum_eq_single i]
  · simp only [Function.comp_apply]
    by_cases hj : (j.1 : ℤ) = h.get i
    · rw [if_pos (by rw [Prod.ext_iff]; exact ⟨rfl, hj.symm⟩), if_pos hj]
    · rw [if_neg ?_, if_neg hj]
      intro hc
      rw [Prod.ext_iff] at hc
      exact hj hc.2.symm
  · intro k _ hk
    simp only [Function.comp_apply]
    rw [if_neg]
    intro hc
    rw [Prod.ext_iff] at hc
    exact hk (Fin.ext hc.1)
  · intro hni
    exact absurd (Finset.mem_univ i) hni

/-- C6: every sketch matrix produced from a valid `(bucket_index, sign)` pair
is an `[input_dim, output_dim]` matrix whose row `i` holds `sign[i]` at
column `bucket_index[i]` and `0` everywhere else — exactly one nonzero per
row. -/
theorem c6_sketch_matrix_structure (h : List ℤ) (s : List ℚ) (D : ℕ)
    (hl : h.length = s.length) (hr : ∀ x ∈ h, 0 ≤ x ∧ x < (D : ℤ))
    (hs : ∀ v ∈ s, v = 1 ∨ v = -1) :
    ∃ f : Fin h.length → Fin D → ℚ,
      generate_sketch_matrix (.numpyArr h) (.numpyArr s) D =
          .ok ⟨h.length, D, f⟩ ∧
      (∀ (i : Fin h.length) (j : Fin D),
        f i j = if (j.1 : ℤ) = h.get i then s.getD i.1 0 else 0) ∧
      (∀ (i : Fin h.length) (j : Fin D),
        f i j ≠ 0 ↔ (j.1 : ℤ) = h.get i) := by
  refine ⟨to_dense h.length D
    (List.ofFn (fun k : Fin h.length => ((k.1, h.get k), s.getD k.1 0))),
    ?_, ?_, ?_⟩
  · simp only [generate_sketch_matrix, astype]
    rw [if_pos ⟨hl, hr⟩]
  · intro i j
    exact to_dense_entries h s D i j
  · intro i j
    rw [to_dense_entries h s D i j]
    have hmem : s.getD i.1 0 ∈ s := by
      have hi : i.1 < s.length := hl ▸ i.2
      rw [List.getD_eq_getElem s 0 hi]
      exact List.getElem_mem hi
    have hsv := hs _ hmem
    by_cases hj : (j.1 : ℤ) = h.get i
    · rw [if_pos hj]
      constructor
      · intro _; exact hj
      · intro _
        rcases hsv with hv | hv <;> rw [hv] <;> norm_num
    · rw [if_neg hj]
      simpa using hj

/-- C6 (witness): the concrete valid pair `bucket_index = [1, 0]`,
`sign = [1, -1]`, `output_dim = 2` satisfies the hypotheses and yields the
structured matrix. -/
theorem c6_sketch_matrix_structure_witness :
    (([1, 0] : List ℤ).length = ([1, -1] : List ℚ).length ∧
      (∀ x ∈ ([1, 0] : List ℤ), 0 ≤ x ∧ x < (2 : ℤ)) ∧
      (∀ v ∈ ([1, -1] : List ℚ), v = 1 ∨ v = -1)) ∧
    (∃ f : Fin ([1, 0] : List ℤ).length → Fin 2 → ℚ,
      generate_sketch_matrix (.numpyArr [1, 0]) (.numpyArr [1, -1]) 2 =
          .ok ⟨([1, 0] : List ℤ).length, 2, f⟩ ∧
      (∀ (i : Fin ([1, 0] : List ℤ).length) (j : Fin 2),
        f i j = if (j.1 : ℤ) = ([1, 0] : List ℤ).get i then
          ([1, -1] : List ℚ).getD i.1 0 else 0) ∧
      (∀ (i : Fin ([1, 0] : List ℤ).length) (j : Fin 2),
        f i j ≠ 0 ↔ (j.1 : ℤ) = ([1, 0] : List ℤ).get i)) :=
  ⟨⟨by decide, by decide, by decide⟩,
    c6_sketch_matrix_structure [1, 0] [1, -1] 2 (by decide) (by decide)
      (by decide)⟩

/-- C7 (counterexample): constructing the layer with default specs does not
merely advance the caller's generator — starting the global torch RNG at
state 100, the state after construction is the fixed constant produced by
the hard-coded reseeding (`manual_seed(1/3/...)` plus one draw each), which
is not `100 + k` for any number of advances `k`. -/
theorem c7_counterexample_rng_clobbered :
    ¬ ∃ k : ℕ,
      (init 2 2 4 true none none none none (fun _ _ _ => []) 100).2 =
        100 + k := by
  rintro ⟨k, hk⟩
  rw [show (init 2 2 4 true none none none none (fun _ _ _ => []) 100).2 = 4
    from rfl] at hk
  omega

/-- C7 (amended): `generate_sketch_matrix` itself is pure, and construction
with all four projection specs supplied leaves the global RNG state
untouched; but construction with default specs overwrites the global state
with hard-coded seeds, so its final state is a constant independent of the
caller's incoming generator state. -/
theorem c7_rng_state_behaviour (inD1 inD2 D : ℕ) (sp : Bool)
    (h1 : NdArray ℤ) (s1 : NdArray ℚ) (h2 : NdArray ℤ) (s2 : NdArray ℚ)
    (drawFn : ℕ → ℕ → ℕ → List ℤ) (st st' : ℕ) :
    (init inD1 inD2 D sp (some h1) (some s1) (some h2) (some s2)
        drawFn st).2 = st ∧
    (init inD1 inD2 D sp none none none none drawFn st).2 =
      (init inD1 inD2 D sp none none none none drawFn st').2 := by
  constructor
  · cases hg1 : generate_sketch_matrix h1 s1 D with
    | error e => simp [init, hg1]
    | ok m1 =>
      cases hg2 : generate_sketch_matrix h2 s2 D with
      | error e => simp [init, hg1, hg2]
      | ok m2 => simp [init, hg1, hg2]
  · rfl

/-- C9: construction with all-default projection specs never completes —
whatever the generator draws, the torch tensors returned by `torch.randint`
reach `generate_sketch_matrix`, whose numpy `.astype` call raises
`AttributeError`, so no instance (and no pair of reproducible instances) is
ever built.  (With explicitly supplied numpy specs, construction and
`forward` are pure functions of their arguments in this embedding, so the
determinism half of the claim is not at issue; the default path is.) -/
theorem c9_default_construction_raises (inD1 inD2 D : ℕ) (sp : Bool)
    (drawFn : ℕ → ℕ → ℕ → List ℤ) (st : ℕ) :
    (init inD1 inD2 D sp none none none none drawFn st).1 =
      .error .attributeError := rfl

lemma cpow_negI_one : cpow ((0 : ℚ), (-1 : ℚ)) 1 = (0, -1) := by
  rw [show cpow ((0 : ℚ), (-1 : ℚ)) 1 = cmul (0, -1) (cpow (0, -1) 0) from rfl]
  norm_num [cmul, cpow]

lemma cpow_negI_two : cpow ((0 : ℚ), (-1 : ℚ)) 2 = (-1, 0) := by
  rw [show cpow ((0 : ℚ), (-1 : ℚ)) 2 = cmul (0, -1) (cpow (0, -1) 1) from rfl,
    cpow_negI_one]
  norm_num [cmul]

lemma cpow_negI_three : cpow ((0 : ℚ), (-1 : ℚ)) 3 = (0, 1) := by
  rw [show cpow ((0 : ℚ), (-1 : ℚ)) 3 = cmul (0, -1) (cpow (0, -1) 2) from rfl,
    cpow_negI_two]
  norm_num [cmul]

lemma cpow_negI_four : cpow ((0 : ℚ), (-1 : ℚ)) 4 = (1, 0) := by
  rw [show cpow ((0 : ℚ), (-1 : ℚ)) 4 = cmul (0, -1) (cpow (0, -1) 3) from rfl,
    cpow_negI_three]
  norm_num [cmul]

lemma cpow_negI_five : cpow ((0 : ℚ), (-1 : ℚ)) 5 = (0, -1) := by
  rw [show cpow ((0 : ℚ), (-1 : ℚ)) 5 = cmul (0, -1) (cpow (0, -1) 4) from rfl,
    cpow_negI_four]
  norm_num [cmul]

lemma cpow_negI_six : cpow ((0 : ℚ), (-1 : ℚ)) 6 = (-1, 0) := by
  rw [show cpow ((0 : ℚ), (-1 : ℚ)) 6 = cmul (0, -1) (cpow (0, -1) 5) from rfl,
    cpow_negI_five]
  norm_num [cmul]

lemma cpow_negI_seven : cpow ((0 : ℚ), (-1 : ℚ)) 7 = (0, 1) := by
  rw [show cpow ((0 : ℚ), (-1 : ℚ)) 7 = cmul (0, -1) (cpow (0, -1) 6) from rfl,
    cpow_negI_six]
  norm_num [cmul]

lemma cpow_negI_eight : cpow ((0 : ℚ), (-1 : ℚ)) 8 = (1, 0) := by
  rw [show cpow ((0 : ℚ), (-1 : ℚ)) 8 = cmul (0, -1) (cpow (0, -1) 7) from rfl,
    cpow_negI_seven]
  norm_num [cmul]

lemma cpow_negI_nine : cpow ((0 : ℚ), (-1 : ℚ)) 9 = (0, -1) := by
  rw [show cpow ((0 : ℚ), (-1 : ℚ)) 9 = cmul (0, -1) (cpow (0, -1) 8) from rfl,
    cpow_negI_eight]
  norm_num [cmul]

lemma cpow_posI_one : cpow ((0 : ℚ), (1 : ℚ)) 1 = (0, 1) := by
  rw [show cpow ((0 : ℚ), (1 : ℚ)) 1 = cmul (0, 1) (cpow (0, 1) 0) from rfl]
  norm_num [cmul, cpow]

lemma cpow_posI_two : cpow ((0 : ℚ), (1 : ℚ)) 2 = (-1, 0) := by
  rw [show cpow ((0 : ℚ), (1 : ℚ)) 2 = cmul (0, 1) (cpow (0, 1) 1) from rfl,
    cpow_posI_one]
  norm_num [cmul]

lemma cpow_posI_three : cpow ((0 : ℚ), (1 : ℚ)) 3 = (0, -1) := by
  rw [show cpow ((0 : ℚ), (1 : ℚ)) 3 = cmul (0, 1) (cpow (0, 1) 2) from rfl,
    cpow_posI_two]
  norm_num [cmul]

lemma finval_two : ((2 : Fin 4) : ℕ) = 2 := rfl

lemma finval_three : ((3 : Fin 4) : ℕ) = 3 := rfl

lemma finsub_one_zero : (1 : Fin 4) - 0 = 1 := rfl

lemma finsub_one_one : (1 : Fin 4) - 1 = 0 := rfl

lemma finsub_one_two : (1 : Fin 4) - 2 = 3 := rfl

lemma finsub_one_three : (1 : Fin 4) - 3 = 2 := rfl

/-- C1 (counterexample evaluation): with `output_dim = 4`, the exact DFT
twiddle roots `ω = -i`, `ωi = i`, `ninv = 1/4`, sketch matrices sending the
two channels of `bottom1` to buckets 0 and 1 (signs `+1`) and the single
channel of `bottom2` to bucket 0 (sign `+1`), and all-ones inputs with
`B = H = W = 1`, the count sketches are `(1,1,0,0)` and the delta `(1,0,0,0)`;
their circular convolution at index 1 is `1`, but the forward pipeline —
whose element-wise step computes `imag = r1·r2 + i1·i2` instead of the
complex product's `r1·i2 + i1·r2` — returns `1/2` there. -/
theorem c1_pipeline_differs_from_circular_convolution :
    cbpUnpooled
      (fun (i : Fin 2) (j : Fin 4) => if j.1 = i.1 then (1 : ℚ) else 0)
      (fun (_ : Fin 1) (j : Fin 4) => if j.1 = 0 then (1 : ℚ) else 0)
      (0, -1) (0, 1) (1 / 4)
      (fun (_ : Fin 1) (_ : Fin 2) (_ : Fin 1) (_ : Fin 1) => (1 : ℚ))
      (fun (_ : Fin 1) (_ : Fin 1) (_ : Fin 1) (_ : Fin 1) => (1 : ℚ))
      0 0 0 1 ≠
    circConv
      (mmRows
        (flat4 (fun (_ : Fin 1) (_ : Fin 2) (_ : Fin 1) (_ : Fin 1) => (1 : ℚ)))
        (fun (i : Fin 2) (j : Fin 4) => if j.1 = i.1 then (1 : ℚ) else 0)
        (enc 0 0 0))
      (mmRows
        (flat4 (fun (_ : Fin 1) (_ : Fin 1) (_ : Fin 1) (_ : Fin 1) => (1 : ℚ)))
        (fun (_ : Fin 1) (j : Fin 4) => if j.1 = 0 then (1 : ℚ) else 0)
        (enc 0 0 0))
      1 := by
  simp only [cbpUnpooled, convRows, idftVec, dftVec, toC, fft_product, mmRows,
    cscale, circConv, flat4_enc, Fin.sum_univ_four, Fin.sum_univ_two,
    Fin.sum_univ_one]
  norm_num [Fin.val_zero, Fin.val_one, finval_two, finval_three,
    finsub_one_zero, finsub_one_one, finsub_one_two, finsub_one_three,
    cpow, cmul, cpow_negI_one, cpow_negI_two, cpow_negI_three, cpow_negI_four,
    cpow_negI_five, cpow_negI_six, cpow_negI_seven, cpow_negI_eight,
    cpow_negI_nine, cpow_posI_one, cpow_posI_two, cpow_posI_three]

lemma convRows_congr_row {N D : ℕ} (ω ωi : ℚ × ℚ) (ninv : ℚ)
    (s1 s2 t1 t2 : Fin N → Fin D → ℚ) (n : Fin N)
    (h1 : s1 n = t1 n) (h2 : s2 n = t2 n) (d : Fin D) :
    convRows ω ωi ninv s1 s2 n d = convRows ω ωi ninv t1 t2 n d := by
  unfold convRows
  rw [h1, h2]

lemma mmRows_congr_row {N C D : ℕ} (x y : Fin N → Fin C → ℚ)
    (M : Fin C → Fin D → ℚ) (n : Fin N) (h : ∀ c, x n c = y n c) :
    mmRows x M n = mmRows y M n := by
  funext d
  unfold mmRows
  exact Finset.sum_congr rfl (fun c _ => by rw [h c])

/-- C8: with `sum_pool` disabled, the output at spatial location `(b, h, w)`
depends only on the channel vectors of the two inputs at that location —
inputs that agree there produce the same output there, whatever their values
elsewhere. -/
theorem c8_per_pixel_locality {B C1 C2 H W D : ℕ} (M1 : Fin C1 → Fin D → ℚ)
    (M2 : Fin C2 → Fin D → ℚ) (ω ωi : ℚ × ℚ) (ninv : ℚ)
    (x1 y1 : Fin B → Fin C1 → Fin H → Fin W → ℚ)
    (x2 y2 : Fin B → Fin C2 → Fin H → Fin W → ℚ)
    (b : Fin B) (h : Fin H) (w : Fin W)
    (h1 : ∀ c, x1 b c h w = y1 b c h w)
    (h2 : ∀ c, x2 b c h w = y2 b c h w) :
    ∀ d, cbpUnpooled M1 M2 ω ωi ninv x1 x2 b h w d =
      cbpUnpooled M1 M2 ω ωi ninv y1 y2 b h w d := by
  intro d
  unfold cbpUnpooled
  refine convRows_congr_row ω ωi ninv _ _ _ _ (enc b h w) ?_ ?_ d
  · exact mmRows_congr_row _ _ M1 (enc b h w)
      (fun c => by rw [flat4_enc, flat4_enc]; exact h1 c)
  · exact mmRows_congr_row _ _ M2 (enc b h w)
      (fun c => by rw [flat4_enc, flat4_enc]; exact h2 c)

/-- C8 (witness): concrete inputs over a `1×1×2×1` grid that agree at
location `(0, 0, 0)` but differ at height 1 give equal outputs at
`(0, 0, 0)`. -/
theorem c8_per_pixel_locality_witness :
    ((∀ c : Fin 1,
        (fun (_ : Fin 1) (_ : Fin 1) (hh : Fin 2) (_ : Fin 1) =>
          if hh.1 = 0 then (1 : ℚ) else 2) 0 c 0 0 =
        (fun (_ : Fin 1) (_ : Fin 1) (hh : Fin 2) (_ : Fin 1) =>
          if hh.1 = 0 then (1 : ℚ) else 3) 0 c 0 0) ∧
      (∀ c : Fin 1,
        (fun (_ : Fin 1) (_ : Fin 1) (_ : Fin 2) (_ : Fin 1) => (1 : ℚ))
          0 c 0 0 =
        (fun (_ : Fin 1) (_ : Fin 1) (_ : Fin 2) (_ : Fin 1) => (1 : ℚ))
          0 c 0 0)) ∧
    (∀ d : Fin 1,
      cbpUnpooled (fun (_ : Fin 1) (_ : Fin 1) => (1 : ℚ))
        (fun (_ : Fin 1) (_ : Fin 1) => (1 : ℚ)) (0, -1) (0, 1) 1
        (fun (_ : Fin 1) (_ : Fin 1) (hh : Fin 2) (_ : Fin 1) =>
          if hh.1 = 0 then (1 : ℚ) else 2)
        (fun (_ : Fin 1) (_ : Fin 1) (_ : Fin 2) (_ : Fin 1) => (1 : ℚ))
        0 0 0 d =
      cbpUnpooled (fun (_ : Fin 1) (_ : Fin 1) => (1 : ℚ))
        (fun (_ : Fin 1) (_ : Fin 1) => (1 : ℚ)) (0, -1) (0, 1) 1
        (fun (_ : Fin 1) (_ : Fin 1) (hh : Fin 2) (_ : Fin 1) =>
          if hh.1 = 0 then (1 : ℚ) else 3)
        (fun (_ : Fin 1) (_ : Fin 1) (_ : Fin 2) (_ : Fin 1) => (1 : ℚ))
        0 0 0 d) :=
  ⟨⟨by decide, by decide⟩,
    c8_per_pixel_locality (fun _ _ => 1) (fun _ _ => 1) (0, -1) (0, 1) 1
      (fun _ _ hh _ => if hh.1 = 0 then 1 else 2)
      (fun _ _ hh _ => if hh.1 = 0 then 1 else 3)
      (fun _ _ _ _ => 1) (fun _ _ _ _ => 1) 0 0 0
      (by decide) (by decide)⟩

lemma fst_sum {ι : Type} (s : Finset ι) (f : ι → ℚ × ℚ) :
    (∑ i ∈ s, f i).1 = ∑ i ∈ s, (f i).1 :=
  map_sum (AddMonoidHom.fst ℚ ℚ) f s

lemma snd_sum {ι : Type} (s : Finset ι) (f : ι → ℚ × ℚ) :
    (∑ i ∈ s, f i).2 = ∑ i ∈ s, (f i).2 :=
  map_sum (AddMonoidHom.snd ℚ ℚ) f s

lemma mmRows_linear {N C D : ℕ} (a : ℚ) (x y : Fin N → Fin C → ℚ)
    (M : Fin C → Fin D → ℚ) (n : Fin N) (d : Fin D) :
    mmRows (fun n c => a * x n c + y n c) M n d =
      a * mmRows x M n d + mmRows y M n d := by
  unfold mmRows
  rw [Finset.mul_sum, ← Finset.sum_add_distrib]
  exact Finset.sum_congr rfl (fun c _ => by ring)

lemma dftVec_toC_linear {D : ℕ} (ω : ℚ × ℚ) (a : ℚ) (u v : Fin D → ℚ)
    (k : Fin D) :
    dftVec ω (toC (fun j => a * u j + v j)) k =
      cscale a (dftVec ω (toC u) k) + dftVec ω (toC v) k := by
  apply Prod.ext
  · unfold dftVec toC cscale
    rw [Prod.fst_add, fst_sum, fst_sum, fst_sum, Finset.mul_sum,
      ← Finset.sum_add_distrib]
    exact Finset.sum_congr rfl (fun j _ => by simp [cmul]; ring)
  · unfold dftVec toC cscale
    rw [Prod.snd_add, snd_sum, snd_sum, snd_sum, Finset.mul_sum,
      ← Finset.sum_add_distrib]
    exact Finset.sum_congr rfl (fun j _ => by simp [cmul]; ring)

lemma fft_product_linear_left (a : ℚ) (p q r : ℚ × ℚ) :
    fft_product (cscale a p + q) r =
      cscale a (fft_product p r) + fft_product q r := by
  apply Prod.ext <;> simp [fft_product, cscale] <;> ring

lemma fft_product_linear_right (a : ℚ) (p q r : ℚ × ℚ) :
    fft_product p (cscale a q + r) =
      cscale a (fft_product p q) + fft_product p r := by
  apply Prod.ext <;> simp [fft_product, cscale] <;> ring

lemma idftVec_fst_linear {D : ℕ} (ωi : ℚ × ℚ) (ninv a : ℚ)
    (P Q : Fin D → ℚ × ℚ) (j : Fin D) :
    (idftVec ωi ninv (fun k => cscale a (P k) + Q k) j).1 =
      a * (idftVec ωi ninv P j).1 + (idftVec ωi ninv Q j).1 := by
  unfold idftVec cscale
  simp only
  rw [fst_sum, fst_sum, fst_sum]
  rw [show (∑ k, (cmul (cpow ωi (j.1 * k.1))
      ((a * (P k).1, a * (P k).2) + Q k)).1) =
    ∑ k, (a * (cmul (cpow ωi (j.1 * k.1)) (P k)).1 +
      (cmul (cpow ωi (j.1 * k.1)) (Q k)).1) from
    Finset.sum_congr rfl (fun k _ => by simp [cmul]; ring)]
  rw [Finset.sum_add_distrib]
  simp only [mul_add, Finset.mul_sum]
  congr 1
  exact Finset.sum_congr rfl (fun k _ => by ring)

lemma convRows_linear_left {N D : ℕ} (ω ωi : ℚ × ℚ) (ninv a : ℚ)
    (s1 t1 s2 : Fin N → Fin D → ℚ) (n : Fin N) (d : Fin D) :
    convRows ω ωi ninv (fun n j => a * s1 n j + t1 n j) s2 n d =
      a * convRows ω ωi ninv s1 s2 n d + convRows ω ωi ninv t1 s2 n d := by
  unfold convRows
  rw [show (fun k => fft_product
        (dftVec ω (toC (fun j => a * s1 n j + t1 n j)) k)
        (dftVec ω (toC (s2 n)) k)) =
      (fun k => cscale a (fft_product (dftVec ω (toC (s1 n)) k)
          (dftVec ω (toC (s2 n)) k)) +
        fft_product (dftVec ω (toC (t1 n)) k) (dftVec ω (toC (s2 n)) k)) from
    funext (fun k => by rw [dftVec_toC_linear, fft_product_linear_left])]
  exact idftVec_fst_linear ωi ninv a _ _ d

lemma convRows_linear_right {N D : ℕ} (ω ωi : ℚ × ℚ) (ninv a : ℚ)
    (s1 s2 t2 : Fin N → Fin D → ℚ) (n : Fin N) (d : Fin D) :
    convRows ω ωi ninv s1 (fun n j => a * s2 n j + t2 n j) n d =
      a * convRows ω ωi ninv s1 s2 n d + convRows ω ωi ninv s1 t2 n d := by
  unfold convRows
  rw [show (fun k => fft_product (dftVec ω (toC (s1 n)) k)
        (dftVec ω (toC (fun j => a * s2 n j + t2 n j)) k)) =
      (fun k => cscale a (fft_product (dftVec ω (toC (s1 n)) k)
          (dftVec ω (toC (s2 n)) k)) +
        fft_product (dftVec ω (toC (s1 n)) k) (dftVec ω (toC (t2 n)) k)) from
    funext (fun k => by rw [dftVec_toC_linear, fft_product_linear_right])]
  exact idftVec_fst_linear ωi ninv a _ _ d

/-- C10: under exact arithmetic, `forward`'s transform is bilinear: linear
in `bottom1` with `bottom2` fixed and linear in `bottom2` with `bottom1`
fixed, in both the unpooled and the pooled output (the code's element-wise
product, though not complex multiplication, is still bilinear in the two
transformed signals). -/
theorem c10_bilinear {B C1 C2 H W D : ℕ} (M1 : Fin C1 → Fin D → ℚ)
    (M2 : Fin C2 → Fin D → ℚ) (ω ωi : ℚ × ℚ) (ninv a : ℚ)
    (x1 y1 : Fin B → Fin C1 → Fin H → Fin W → ℚ)
    (x2 y2 : Fin B → Fin C2 → Fin H → Fin W → ℚ) :
    (∀ b h w d, cbpUnpooled M1 M2 ω ωi ninv
        (fun b c h w => a * x1 b c h w + y1 b c h w) x2 b h w d =
      a * cbpUnpooled M1 M2 ω ωi ninv x1 x2 b h w d +
        cbpUnpooled M1 M2 ω ωi ninv y1 x2 b h w d) ∧
    (∀ b h w d, cbpUnpooled M1 M2 ω ωi ninv x1
        (fun b c h w => a * x2 b c h w + y2 b c h w) b h w d =
      a * cbpUnpooled M1 M2 ω ωi ninv x1 x2 b h w d +
        cbpUnpooled M1 M2 ω ωi ninv x1 y2 b h w d) ∧
    (∀ b d, cbpPooled M1 M2 ω ωi ninv
        (fun b c h w => a * x1 b c h w + y1 b c h w) x2 b d =
      a * cbpPooled M1 M2 ω ωi ninv x1 x2 b d +
        cbpPooled M1 M2 ω ωi ninv y1 x2 b d) ∧
    (∀ b d, cbpPooled M1 M2 ω ωi ninv x1
        (fun b c h w => a * x2 b c h w + y2 b c h w) b d =
      a * cbpPooled M1 M2 ω ωi ninv x1 x2 b d +
        cbpPooled M1 M2 ω ωi ninv x1 y2 b d) := by
  have hleft : ∀ b h w d, cbpUnpooled M1 M2 ω ωi ninv
      (fun b c h w => a * x1 b c h w + y1 b c h w) x2 b h w d =
    a * cbpUnpooled M1 M2 ω ωi ninv x1 x2 b h w d +
      cbpUnpooled M1 M2 ω ωi ninv y1 x2 b h w d := by
    intro b h w d
    unfold cbpUnpooled
    rw [show flat4 (fun b c h w => a * x1 b c h w + y1 b c h w) =
        (fun n c => a * flat4 x1 n c + flat4 y1 n c) from rfl]
    rw [show mmRows (fun n c => a * flat4 x1 n c + flat4 y1 n c) M1 =
        (fun n j => a * mmRows (flat4 x1) M1 n j + mmRows (flat4 y1) M1 n j)
      from funext (fun n => funext (fun j => mmRows_linear a _ _ M1 n j))]
    exact convRows_linear_left ω ωi ninv a _ _ _ (enc b h w) d
  have hright : ∀ b h w d, cbpUnpooled M1 M2 ω ωi ninv x1
      (fun b c h w => a * x2 b c h w + y2 b c h w) b h w d =
    a * cbpUnpooled M1 M2 ω ωi ninv x1 x2 b h w d +
      cbpUnpooled M1 M2 ω ωi ninv x1 y2 b h w d := by
    intro b h w d
    unfold cbpUnpooled
    rw [show flat4 (fun b c h w => a * x2 b c h w + y2 b c h w) =
        (fun n c => a * flat4 x2 n c + flat4 y2 n c) from rfl]
    rw [show mmRows (fun n c => a * flat4 x2 n c + flat4 y2 n c) M2 =
        (fun n j => a * mmRows (flat4 x2) M2 n j + mmRows (flat4 y2) M2 n j)
      from funext (fun n => funext (fun j => mmRows_linear a _ _ M2 n j))]
    exact convRows_linear_right ω ωi ninv a _ _ _ (enc b h w) d
  refine ⟨hleft, hright, ?_, ?_⟩
  · intro b d
    unfold cbpPooled
    rw [Finset.mul_sum, ← Finset.sum_add_distrib]
    refine Finset.sum_congr rfl (fun w _ => ?_)
    rw [Finset.mul_sum, ← Finset.sum_add_distrib]
    exact Finset.sum_congr rfl (fun h _ => hleft b h w d)
  · intro b d
    unfold cbpPooled
    rw [Finset.mul_sum, ← Finset.sum_add_distrib]
    refine Finset.sum_congr rfl (fun w _ => ?_)
    rw [Finset.mul_sum, ← Finset.sum_add_distrib]
    exact Finset.sum_congr rfl (fun h _ => hright b h w d)

end CompactBilinearPooling
